import Mathlib

/-!
Shallow embedding of the commit/tree storage core of jj (`src/lib/src/backend.rs`),
together with proofs of the specified properties.

Bytes are modelled as `Nat` (with `< 256` hypotheses where byte-ness matters),
byte sequences as `List Nat`.  Modules of the repository that are referenced by
`backend.rs` but whose sources are not available (`content_hash.rs`, `merge.rs`,
`repo_path.rs`, the `hex` crate) are modelled from the specification; each such
definition says so in its doc comment.
-/

/-- Little-endian encoding of a natural number into `w` bytes
(the canonical fixed-width integer encoding of the hashing scheme). -/
def natLe : Nat → Nat → List Nat
  | 0, _ => []
  | w + 1, n => n % 256 :: natLe w (n / 256)

/-- Four-byte little-endian encoding, as produced by `u32::to_le_bytes`. -/
def u32le (n : Nat) : List Nat := natLe 4 n

/-- Eight-byte little-endian encoding, as produced by `u64::to_le_bytes`. -/
def u64le (n : Nat) : List Nat := natLe 8 n

/-- Little-endian two's-complement encoding of an `i64` value. -/
def i64le (i : Int) : List Nat := natLe 8 ((i.emod (2 ^ 64)).toNat)

/-- Little-endian two's-complement encoding of an `i32` value. -/
def i32le (i : Int) : List Nat := natLe 4 ((i.emod (2 ^ 32)).toNat)

theorem natLe_length (w n : Nat) : (natLe w n).length = w := by
  induction w generalizing n with
  | zero => rfl
  | succ w ih => simp [natLe, ih]

theorem natLe_inj (w : Nat) : ∀ n m : Nat, n < 256 ^ w → m < 256 ^ w →
    natLe w n = natLe w m → n = m := by
  induction w with
  | zero =>
    intro n m hn hm _
    simp [Nat.pow_zero, Nat.lt_one_iff] at hn hm
    omega
  | succ w ih =>
    intro n m hn hm h
    simp only [natLe, List.cons.injEq] at h
    have hn' : n / 256 < 256 ^ w := by
      apply Nat.div_lt_of_lt_mul
      calc n < 256 ^ (w + 1) := hn
        _ = 256 * 256 ^ w := by ring
    have hm' : m / 256 < 256 ^ w := by
      apply Nat.div_lt_of_lt_mul
      calc m < 256 ^ (w + 1) := hm
        _ = 256 * 256 ^ w := by ring
    have := ih (n / 256) (m / 256) hn' hm' h.2
    omega

/-- Hexadecimal character (as a byte) for a nibble: `0-9` then `a-f`,
matching the lowercase output of `hex::encode`. -/
def nibbleChar (n : Nat) : Nat := if n < 10 then 48 + n else 87 + n

/-- Modelled from the spec: the `hex` crate (an external dependency of
`backend.rs`, source not in the repository) encodes each byte as two lowercase
hexadecimal digits, high nibble first, with no separators. -/
def hexEncode : List Nat → List Nat
  | [] => []
  | b :: rest => nibbleChar (b / 16) :: nibbleChar (b % 16) :: hexEncode rest

/-- Value of one hexadecimal character; `hex::decode` accepts both cases. -/
def nibbleVal (c : Nat) : Option Nat :=
  if 48 ≤ c ∧ c ≤ 57 then some (c - 48)
  else if 97 ≤ c ∧ c ≤ 102 then some (c - 87)
  else if 65 ≤ c ∧ c ≤ 70 then some (c - 55)
  else none

/-- Modelled from the spec: `hex::decode` fails on text of odd length or
containing a non-hexadecimal character, and otherwise decodes pairs of digits
into bytes. -/
def hexDecode : List Nat → Option (List Nat)
  | [] => some []
  | [_] => none
  | c1 :: c2 :: rest =>
    match nibbleVal c1, nibbleVal c2, hexDecode rest with
    | some h, some l, some bs => some ((16 * h + l) :: bs)
    | _, _, _ => none

/-- Raw-byte identifier constructor (`impl_id_type`: `from_bytes` wraps the
bytes verbatim, no validation). -/
def ObjectId.from_bytes (bytes : List Nat) : List Nat := bytes

/-- Hexadecimal rendering of an identifier (`impl_id_type`: `hex` is
`hex::encode` of the raw bytes). -/
def ObjectId.hex (id : List Nat) : List Nat := hexEncode id

/-- Hexadecimal parsing of an identifier (`impl_id_type`: `from_hex` is
`hex::decode(hex).unwrap()`; the `unwrap` panic on malformed text is modelled
as `none`). -/
def ObjectId.from_hex (text : List Nat) : Option (List Nat) := hexDecode text

/-- Predicate: the byte is a lowercase hexadecimal digit character. -/
def isLowerHexDigit (c : Nat) : Bool :=
  (48 ≤ c && c ≤ 57) || (97 ≤ c && c ≤ 102)

theorem nibbleVal_nibbleChar {n : Nat} (h : n < 16) :
    nibbleVal (nibbleChar n) = some n := by
  unfold nibbleVal nibbleChar
  by_cases h10 : n < 10
  · simp only [if_pos h10]
    have : 48 ≤ 48 + n ∧ 48 + n ≤ 57 := by omega
    simp [this]
  · simp only [if_neg h10]
    have h1 : ¬(48 ≤ 87 + n ∧ 87 + n ≤ 57) := by omega
    have h2 : 97 ≤ 87 + n ∧ 87 + n ≤ 102 := by omega
    simp [h1, h2]

theorem nibbleChar_isLowerHex {n : Nat} (h : n < 16) :
    isLowerHexDigit (nibbleChar n) = true := by
  unfold isLowerHexDigit nibbleChar
  by_cases h10 : n < 10
  · simp only [if_pos h10, Bool.or_eq_true, Bool.and_eq_true, decide_eq_true_eq]
    left; omega
  · simp only [if_neg h10, Bool.or_eq_true, Bool.and_eq_true, decide_eq_true_eq]
    right; omega

theorem hexDecode_hexEncode {b : List Nat} (hb : ∀ x ∈ b, x < 256) :
    hexDecode (hexEncode b) = some b := by
  induction b with
  | nil => rfl
  | cons x rest ih =>
    have hx : x < 256 := hb x (List.mem_cons_self x rest)
    have hrest : ∀ y ∈ rest, y < 256 := fun y hy => hb y (List.mem_cons_of_mem x hy)
    have hhi : x / 16 < 16 := by omega
    have hlo : x % 16 < 16 := by omega
    have hx' : 16 * (x / 16) + x % 16 = x := by omega
    simp only [hexEncode, hexDecode, nibbleVal_nibbleChar hhi, nibbleVal_nibbleChar hlo,
      ih hrest, hx']

theorem hexEncode_length (b : List Nat) : (hexEncode b).length = 2 * b.length := by
  induction b with
  | nil => rfl
  | cons x rest ih => simp [hexEncode, ih]; omega

theorem hexEncode_lowercase {b : List Nat} (hb : ∀ x ∈ b, x < 256) :
    ∀ c ∈ hexEncode b, isLowerHexDigit c = true := by
  induction b with
  | nil => intro c hc; cases hc
  | cons x rest ih =>
    intro c hc
    have hx : x < 256 := hb x (List.mem_cons_self x rest)
    have hrest : ∀ y ∈ rest, y < 256 := fun y hy => hb y (List.mem_cons_of_mem x hy)
    simp only [hexEncode, List.mem_cons] at hc
    rcases hc with h | h | h
    · subst h; exact nibbleChar_isLowerHex (by omega)
    · subst h; exact nibbleChar_isLowerHex (by omega)
    · exact ih hrest c h

/-- C7: identifier hex round-trip: for byte sequences, `from_hex (hex (from_bytes b))`
recovers `b`, the hex text re-parses to itself, is lowercase hex throughout
(hence no separators), and has length `2 * len b`. -/
theorem c7_hex_roundtrip (b : List Nat) (hb : ∀ x ∈ b, x < 256) :
    ObjectId.from_hex (ObjectId.hex (ObjectId.from_bytes b)) = some b ∧
    (ObjectId.from_hex (ObjectId.hex (ObjectId.from_bytes b))).map ObjectId.hex =
      some (ObjectId.hex (ObjectId.from_bytes b)) ∧
    (∀ c ∈ ObjectId.hex (ObjectId.from_bytes b), isLowerHexDigit c = true) ∧
    (ObjectId.hex (ObjectId.from_bytes b)).length = 2 * b.length := by
  refine ⟨hexDecode_hexEncode hb, ?_, hexEncode_lowercase hb, hexEncode_length b⟩
  simp [ObjectId.from_hex, ObjectId.hex, ObjectId.from_bytes, hexDecode_hexEncode hb]

/-- C7 witness at `b = [18, 52, 171]` (hex `1234ab`). -/
theorem c7_hex_roundtrip_witness :
    (∀ x ∈ [18, 52, 171], x < 256) ∧
    (ObjectId.from_hex (ObjectId.hex (ObjectId.from_bytes [18, 52, 171])) =
      some [18, 52, 171] ∧
    (ObjectId.from_hex (ObjectId.hex (ObjectId.from_bytes [18, 52, 171]))).map ObjectId.hex =
      some (ObjectId.hex (ObjectId.from_bytes [18, 52, 171])) ∧
    (∀ c ∈ ObjectId.hex (ObjectId.from_bytes [18, 52, 171]), isLowerHexDigit c = true) ∧
    (ObjectId.hex (ObjectId.from_bytes [18, 52, 171])).length = 2 * [18, 52, 171].length) :=
  ⟨by decide, c7_hex_roundtrip [18, 52, 171] (by decide)⟩


theorem hexDecode_isSome_iff : ∀ s : List Nat,
    (hexDecode s).isSome = true ↔
      (s.length % 2 = 0 ∧ ∀ c ∈ s, (nibbleVal c).isSome = true)
  | [] => by simp [hexDecode]
  | [c] => by simp [hexDecode]
  | c1 :: c2 :: rest => by
    have ih := hexDecode_isSome_iff rest
    constructor
    · intro h
      rcases h1 : nibbleVal c1 with _ | v1 <;>
        rcases h2 : nibbleVal c2 with _ | v2 <;>
        rcases h3 : hexDecode rest with _ | bs <;>
        simp [hexDecode, h1, h2, h3] at h
      have hrest := ih.mp (by simp [h3])
      refine ⟨by simp; omega, ?_⟩
      intro c hc
      simp only [List.mem_cons] at hc
      rcases hc with rfl | rfl | hc
      · simp [h1]
      · simp [h2]
      · exact hrest.2 c hc
    · intro ⟨hlen, hall⟩
      have h1 := hall c1 (by simp)
      have h2 := hall c2 (by simp)
      have hrest : (hexDecode rest).isSome = true := by
        apply ih.mpr
        refine ⟨?_, fun c hc => hall c (by simp [hc])⟩
        simp at hlen ⊢
        omega
      rcases hv1 : nibbleVal c1 with _ | v1
      · rw [hv1] at h1; simp at h1
      rcases hv2 : nibbleVal c2 with _ | v2
      · rw [hv2] at h2; simp at h2
      rcases hv3 : hexDecode rest with _ | bs
      · rw [hv3] at hrest; simp at hrest
      simp [hexDecode, hv1, hv2, hv3]

/-- C8: `from_hex` succeeds exactly on even-length strings of hexadecimal
digits; on text of odd length or containing a non-hex character it fails
(the `unwrap` panic, which occurs before any backend is consulted and so is
not a `BackendError`, is modelled as `none`). -/
theorem c8_from_hex_failure (s : List Nat) :
    ((ObjectId.from_hex s).isSome = true ↔
      (s.length % 2 = 0 ∧ ∀ c ∈ s, (nibbleVal c).isSome = true)) ∧
    ((s.length % 2 = 1 ∨ ∃ c ∈ s, nibbleVal c = none) →
      ObjectId.from_hex s = none) := by
  refine ⟨hexDecode_isSome_iff s, ?_⟩
  intro h
  rcases hv : ObjectId.from_hex s with _ | bs
  · rfl
  exfalso
  have hs : (hexDecode s).isSome = true := by
    simp only [ObjectId.from_hex] at hv
    simp [hv]
  have hiff := (hexDecode_isSome_iff s).mp hs
  rcases h with h | ⟨c, hc, hnone⟩
  · omega
  · have := hiff.2 c hc
    rw [hnone] at this
    simp at this

/-- One hexadecimal digit per half-byte, high nibble of each byte first
(`iter_half_bytes` in `backend.rs`; on bytes, `v >> 4` is `v / 16` and
`v & 0xf` is `v % 16`). -/
def iter_half_bytes (bytes : List Nat) : List Nat :=
  (List.range (bytes.length * 2)).map fun i =>
    let v := bytes.getD (i / 2) 0
    if i % 2 = 0 then v / 16 else v % 16

/-- Common prefix length of two byte sequences, counted in hexadecimal digits
(`common_hex_len` in `backend.rs`). -/
def common_hex_len (bytes_a bytes_b : List Nat) : Nat :=
  (((iter_half_bytes bytes_a).zip (iter_half_bytes bytes_b)).takeWhile
    fun p => p.1 == p.2).length

theorem iter_half_bytes_length (bytes : List Nat) :
    (iter_half_bytes bytes).length = bytes.length * 2 := by
  simp [iter_half_bytes]

theorem iter_half_bytes_cons (x : Nat) (xs : List Nat) :
    iter_half_bytes (x :: xs) = x / 16 :: x % 16 :: iter_half_bytes xs := by
  unfold iter_half_bytes
  have h2 : (x :: xs).length * 2 = xs.length * 2 + 1 + 1 := by
    simp [List.length_cons]; ring
  rw [h2, List.range_succ_eq_map, List.range_succ_eq_map]
  simp only [List.map_cons, List.map_map]
  refine congrArg₂ List.cons ?_ (congrArg₂ List.cons ?_ ?_)
  · simp
  · simp
  · apply List.map_congr_left
    intro i _
    have ha : (i + 1 + 1) / 2 = i / 2 + 1 := by omega
    have hb : (i + 1 + 1) % 2 = i % 2 := by omega
    simp only [Function.comp_apply, Nat.succ_eq_add_one, ha, hb, List.getD_cons_succ]

theorem zip_self_eq_map (l : List Nat) : l.zip l = l.map fun a => (a, a) := by
  induction l with
  | nil => rfl
  | cons x xs ih => simp [List.zip_cons_cons, ih]

/-- C4: `common_hex_len` counts shared leading hex digits: it is `4` on the
byte sequences with hex forms `1234abcd` and `1234ff00`, it is `2 * len b` on
identical sequences, and it is `0` whenever the first nibbles differ. -/
theorem c4_common_hex_len :
    common_hex_len [18, 52, 171, 205] [18, 52, 255, 0] = 4 ∧
    (∀ b : List Nat, common_hex_len b b = 2 * b.length) ∧
    (∀ a b : List Nat, a ≠ [] → b ≠ [] →
      a.headD 0 / 16 ≠ b.headD 0 / 16 → common_hex_len a b = 0) := by
  refine ⟨by decide, ?_, ?_⟩
  · intro b
    unfold common_hex_len
    rw [zip_self_eq_map]
    rw [List.takeWhile_eq_self_iff.mpr ?_]
    · rw [List.length_map, iter_half_bytes_length]
      ring
    · intro x hx
      rcases List.mem_map.mp hx with ⟨a, _, rfl⟩
      simp
  · intro a b ha hb hd
    rcases a with _ | ⟨x, xs⟩
    · exact absurd rfl ha
    rcases b with _ | ⟨y, ys⟩
    · exact absurd rfl hb
    simp only [List.headD_cons] at hd
    simp [common_hex_len, iter_half_bytes_cons, List.zip_cons_cons, List.takeWhile_cons, hd]

/-- C4 witness: the hypotheses of the first-nibble clause discharged at the
one-byte sequences `0x51` and `0x61`. -/
theorem c4_common_hex_len_witness : common_hex_len [81] [97] = 0 :=
  c4_common_hex_len.2.2 [81] [97] (by decide) (by decide) (by decide)

/-- C8 witness: `from_hex` on the odd-length text `"0"` fails. -/
theorem c8_from_hex_failure_witness : ObjectId.from_hex [48] = none :=
  (c8_from_hex_failure [48]).2 (Or.inl (by decide))

/-- Identifier types generated by `id_type!` all wrap a raw byte vector. -/
abbrev CommitId := List Nat

abbrev ChangeId := List Nat

abbrev TreeId := List Nat

abbrev FileId := List Nat

abbrev SymlinkId := List Nat

abbrev ConflictId := List Nat

/-- Modelled from the spec: `content_hash.rs` is not in the sources; the spec
says sequence values hash "a length or explicit per-element delimiter followed
by each element's hash contribution" with fixed-width integers little-endian,
so a byte vector (and hence each `id_type!` struct wrapping one) contributes
its `u64` little-endian length followed by its bytes. -/
def hashBytes (b : List Nat) : List Nat := u64le b.length ++ b

/-- Modelled from the spec: a boolean hashes as its canonical one-byte
encoding. -/
def hashBool (b : Bool) : List Nat := [if b then 1 else 0]

/-- The `TreeValue` enum of `backend.rs`: a file (content id plus executable
flag), a symlink, a nested tree, a git submodule, or a legacy conflict. -/
inductive TreeValue where
  | File (id : FileId) (executable : Bool)
  | Symlink (id : SymlinkId)
  | Tree (id : TreeId)
  | GitSubmodule (id : CommitId)
  | Conflict (id : ConflictId)
deriving DecidableEq

/-- Variant discriminant as hashed by `impl ContentHash for TreeValue`. -/
def TreeValue.tag : TreeValue → Nat
  | .File .. => 0
  | .Symlink _ => 1
  | .Tree _ => 2
  | .GitSubmodule _ => 3
  | .Conflict _ => 4

/-- Content-hash byte stream of a `TreeValue`
(`impl ContentHash for TreeValue` in `backend.rs`): each variant emits its
fixed-width little-endian `u32` discriminant, then its payload contribution. -/
def TreeValue.hash : TreeValue → List Nat
  | .File id executable => u32le 0 ++ hashBytes id ++ hashBool executable
  | .Symlink id => u32le 1 ++ hashBytes id
  | .Tree id => u32le 2 ++ hashBytes id
  | .GitSubmodule id => u32le 3 ++ hashBytes id
  | .Conflict id => u32le 4 ++ hashBytes id

theorem TreeValue.hash_head (v : TreeValue) : v.hash.head? = some v.tag := by
  cases v <;> rfl

/-- C9: every `TreeValue` variant emits its distinct fixed-width little-endian
`u32` discriminant (0 through 4) before the payload, so values of distinct
variants never share a content-hash byte stream, even with identical payload
encodings. -/
theorem c9_tree_value_hash_discriminant :
    (∀ v : TreeValue, v.tag ≤ 4 ∧ v.hash.take 4 = u32le v.tag) ∧
    (∀ v1 v2 : TreeValue, v1.tag ≠ v2.tag → v1.hash ≠ v2.hash) := by
  constructor
  · intro v
    cases v <;> exact ⟨by simp [TreeValue.tag], rfl⟩
  · intro v1 v2 hne heq
    apply hne
    have h1 := TreeValue.hash_head v1
    rw [heq] at h1
    have h2 := h1.symm.trans (TreeValue.hash_head v2)
    exact Option.some.inj h2
/-- C9 witness: a `File` and a `Symlink` wrapping the same id bytes have
different hash streams. -/
theorem c9_tree_value_hash_discriminant_witness :
    TreeValue.hash (.File [5] false) ≠ TreeValue.hash (.Symlink [5]) :=
  c9_tree_value_hash_discriminant.2 (.File [5] false) (.Symlink [5]) (by decide)

/-- Modelled from the spec: `merge.rs` is not in the sources; the spec defines
`Merge<T>` as "an arbitrary odd-length list of `T` values interpreted as
alternating add/remove/.../add", compared by derived structural equality. -/
structure Merge (α : Type) where
  values : List α
deriving DecidableEq

/-- Modelled from the spec: `Merge::resolved(t)` is the single-element
(trivially resolved) merge of `t`. -/
def Merge.resolved {α : Type} (value : α) : Merge α := ⟨[value]⟩

/-- Modelled from the spec: content-hash contribution of a `Merge<TreeId>`,
a sequence value: `u64` little-endian length, then each element's
contribution. -/
def Merge.hash (m : Merge TreeId) : List Nat :=
  u64le m.values.length ++ (m.values.map hashBytes).foldr (· ++ ·) []

/-- The `MergedTreeId` enum of `backend.rs`: either the id of one legacy tree
(which may embed path-level conflicts) or the ids of a merge of conflict-free
trees. -/
inductive MergedTreeId where
  | Legacy (tree_id : TreeId)
  | Merge (tree_ids : Merge TreeId)

/-- Variant tag of a `MergedTreeId` (0 for `Legacy`, 1 for `Merge`). -/
def MergedTreeId.variantTag : MergedTreeId → Nat
  | .Legacy _ => 0
  | .Merge _ => 1

/-- Alias used below where the plain name would be shadowed by the
`MergedTreeId.Merge` constructor. -/
abbrev TreeIdMerge := Merge TreeId

/-- `MergedTreeId::to_merge` from `backend.rs`: a legacy id expands to the
single-element resolved merge, a merge id to its own merge. -/
def MergedTreeId.to_merge : MergedTreeId → TreeIdMerge
  | .Legacy tree_id => Merge.resolved tree_id
  | .Merge tree_ids => tree_ids

/-- `impl PartialEq for MergedTreeId` from `backend.rs`: equality compares the
canonical `Merge<TreeId>` expansions (structural equality on `Merge`). -/
def MergedTreeId.eq (a b : MergedTreeId) : Bool :=
  a.to_merge.values == b.to_merge.values

/-- `impl ContentHash for MergedTreeId` from `backend.rs`: the `Legacy`
variant contributes the byte `"0"` (48) then the tree id's contribution, the
`Merge` variant the byte `"1"` (49) then the merge's contribution. -/
def MergedTreeId.hash : MergedTreeId → List Nat
  | .Legacy tree_id => 48 :: hashBytes tree_id
  | .Merge tree_ids => 49 :: Merge.hash tree_ids

/-- `MergedTreeId::resolved` from `backend.rs`: the `Merge` variant holding a
single-element resolved merge. -/
def MergedTreeId.resolved (tree_id : TreeId) : MergedTreeId :=
  .Merge (Merge.resolved tree_id)

/-- C1: `MergedTreeId` equality holds exactly when the canonical
`Merge<TreeId>` expansions via `to_merge` are equal; in particular
`Legacy(T)` equals `resolved(T)` although the variant tags differ. -/
theorem c1_merged_tree_id_eq :
    (∀ a b : MergedTreeId, MergedTreeId.eq a b = true ↔ a.to_merge = b.to_merge) ∧
    (∀ T : TreeId, MergedTreeId.eq (.Legacy T) (MergedTreeId.resolved T) = true ∧
      (MergedTreeId.Legacy T).variantTag ≠ (MergedTreeId.resolved T).variantTag) := by
  constructor
  · intro a b
    constructor
    · intro h
      have hv : a.to_merge.values = b.to_merge.values := eq_of_beq h
      calc a.to_merge = Merge.mk a.to_merge.values := rfl
        _ = Merge.mk b.to_merge.values := by rw [hv]
        _ = b.to_merge := rfl
    · intro h
      exact beq_iff_eq.mpr (congrArg Merge.values h)
  · intro T
    refine ⟨by simp [MergedTreeId.eq, MergedTreeId.to_merge, MergedTreeId.resolved, Merge.resolved], by simp [MergedTreeId.variantTag, MergedTreeId.resolved]⟩

/-- C2: the content-hash stream of `Legacy(T)` is the tag byte `"0"` (48)
followed by `T`'s contribution, that of `Merge(m)` is the tag byte `"1"` (49)
followed by the merge's contribution; hence `Legacy(T)` and `resolved(T)`
compare equal yet hash to different byte streams. -/
theorem c2_merged_tree_id_hash (T : TreeId) (m : Merge TreeId) :
    MergedTreeId.hash (.Legacy T) = 48 :: hashBytes T ∧
    MergedTreeId.hash (.Merge m) = 49 :: Merge.hash m ∧
    MergedTreeId.eq (.Legacy T) (MergedTreeId.resolved T) = true ∧
    MergedTreeId.hash (.Legacy T) ≠ MergedTreeId.hash (MergedTreeId.resolved T) := by
  refine ⟨rfl, rfl, by simp [MergedTreeId.eq, MergedTreeId.to_merge, MergedTreeId.resolved, Merge.resolved], ?_⟩
  intro h
  have hh := congrArg List.head? h
  simp [MergedTreeId.hash, MergedTreeId.resolved] at hh

/-- `MillisSinceEpoch` wraps a signed 64-bit count of milliseconds. -/
abbrev MillisSinceEpoch := Int

/-- The `Timestamp` struct of `backend.rs`: milliseconds since the epoch plus
a timezone offset in minutes; `PartialOrd`/`Ord` and `ContentHash` are both
derived over the two fields in declaration order. -/
structure Timestamp where
  timestamp : MillisSinceEpoch
  tz_offset : Int
deriving DecidableEq

/-- Comparison of signed integers, as in Rust's `Ord` for `i64`/`i32`. -/
def intCmp (a b : Int) : Ordering :=
  if a < b then .lt else if a = b then .eq else .gt

/-- Derived lexicographic `Ord` for `Timestamp`: the `timestamp` field first,
then `tz_offset` as tie-breaker. -/
def Timestamp.cmp (a b : Timestamp) : Ordering :=
  match intCmp a.timestamp b.timestamp with
  | .eq => intCmp a.tz_offset b.tz_offset
  | o => o

/-- Modelled from the spec: the `content_hash!` macro (defined in the missing
`content_hash.rs`) hashes every struct field in declaration order, fixed-width
integers contributing their little-endian bytes; for `Timestamp` that is the
`i64` milliseconds followed by the `i32` offset. -/
def Timestamp.hash (t : Timestamp) : List Nat :=
  i64le t.timestamp ++ i32le t.tz_offset

theorem i32le_inj {x y : Int} (hxl : -(2 ^ 31) ≤ x) (hxu : x < 2 ^ 31)
    (hyl : -(2 ^ 31) ≤ y) (hyu : y < 2 ^ 31) (h : i32le x = i32le y) : x = y := by
  unfold i32le at h
  have hx0 : (0 : Int) ≤ x.emod (2 ^ 32) := Int.emod_nonneg x (by norm_num)
  have hy0 : (0 : Int) ≤ y.emod (2 ^ 32) := Int.emod_nonneg y (by norm_num)
  have hxlt : x.emod (2 ^ 32) < 2 ^ 32 := Int.emod_lt_of_pos x (by norm_num)
  have hylt : y.emod (2 ^ 32) < 2 ^ 32 := Int.emod_lt_of_pos y (by norm_num)
  have h4 : (256 : Nat) ^ 4 = 2 ^ 32 := by norm_num
  have hN : (x.emod (2 ^ 32)).toNat = (y.emod (2 ^ 32)).toNat := by
    apply natLe_inj 4 _ _ ?_ ?_ h
    · rw [h4]; omega
    · rw [h4]; omega
  have hE : x.emod (2 ^ 32) = y.emod (2 ^ 32) := by omega
  have hd : (2 ^ 32 : Int) ∣ (x - y) :=
    Int.dvd_of_emod_eq_zero (Int.emod_eq_emod_iff_emod_sub_eq_zero.mp hE)
  have hz : x - y = 0 := by
    apply Int.eq_zero_of_abs_lt_dvd hd
    rw [abs_sub_lt_iff]
    constructor <;> linarith [show ((2:Int) ^ 32) = 2 ^ 31 + 2 ^ 31 by norm_num]
  linarith

/-- C3 counterexample: two timestamps with the same milliseconds (0) but
offsets 0 and 60 minutes compare as unequal under the derived ordering and
produce different content-hash contributions, refuting the claim that the
offset affects neither. -/
theorem c3_timestamp_counterexample :
    Timestamp.cmp ⟨0, 0⟩ ⟨0, 60⟩ ≠ Ordering.eq ∧
    Timestamp.hash ⟨0, 0⟩ ≠ Timestamp.hash ⟨0, 60⟩ := by
  constructor
  · decide
  · decide

/-- C3 amended: for timestamps with equal milliseconds but different timezone
offsets (each in `i32` range), the derived ordering compares them as unequal
(the offset is the tie-breaker) and the content-hash contributions differ: the
offset affects both ordering and hashing, not only display. -/
theorem c3_timestamp_amended (t1 t2 : Timestamp)
    (hms : t1.timestamp = t2.timestamp) (hoff : t1.tz_offset ≠ t2.tz_offset)
    (h1l : -(2 ^ 31) ≤ t1.tz_offset) (h1u : t1.tz_offset < 2 ^ 31)
    (h2l : -(2 ^ 31) ≤ t2.tz_offset) (h2u : t2.tz_offset < 2 ^ 31) :
    Timestamp.cmp t1 t2 ≠ Ordering.eq ∧ Timestamp.hash t1 ≠ Timestamp.hash t2 := by
  constructor
  · unfold Timestamp.cmp intCmp
    rw [hms]
    simp only [lt_irrefl, if_neg (lt_irrefl t2.timestamp), if_pos rfl]
    by_cases hlt : t1.tz_offset < t2.tz_offset
    · simp [hlt]
    · simp [hlt, hoff]
  · intro heq
    unfold Timestamp.hash at heq
    rw [hms] at heq
    have h32 := List.append_cancel_left heq
    exact hoff (i32le_inj h1l h1u h2l h2u h32)

/-- C3 amended witness at `⟨0, 5⟩` and `⟨0, 65⟩`. -/
theorem c3_timestamp_amended_witness :
    Timestamp.cmp ⟨0, 5⟩ ⟨0, 65⟩ ≠ Ordering.eq ∧
    Timestamp.hash ⟨0, 5⟩ ≠ Timestamp.hash ⟨0, 65⟩ :=
  c3_timestamp_amended ⟨0, 5⟩ ⟨0, 65⟩ rfl (by decide) (by decide) (by decide)
    (by decide) (by decide)

/-- The `Signature` struct of `backend.rs`. -/
structure Signature where
  name : String
  email : String
  timestamp : Timestamp
deriving DecidableEq

/-- The `SecureSig` struct of `backend.rs`: opaque signed-data bytes plus
signature bytes. -/
structure SecureSig where
  data : List Nat
  sig : List Nat
deriving DecidableEq

/-- The `Commit` struct of `backend.rs`. -/
structure Commit where
  parents : List CommitId
  predecessors : List CommitId
  root_tree : MergedTreeId
  change_id : ChangeId
  description : String
  author : Signature
  committer : Signature
  secure_sig : Option SecureSig

/-- `make_root_commit` from `backend.rs`. -/
def make_root_commit (root_change_id : ChangeId) (empty_tree_id : TreeId) : Commit :=
  let timestamp : Timestamp := { timestamp := 0, tz_offset := 0 }
  let signature : Signature := { name := "", email := "", timestamp := timestamp }
  { parents := []
    predecessors := []
    root_tree := MergedTreeId.Legacy empty_tree_id
    change_id := root_change_id
    description := ""
    author := signature
    committer := signature
    secure_sig := none }

/-- C5: the synthesized root commit has empty parents and predecessors, empty
description, author and committer signatures with empty name and email and
timestamp 0 at offset 0, the given change id, and the given empty tree id as
its root tree. -/
theorem c5_make_root_commit (C : ChangeId) (E : TreeId) :
    (make_root_commit C E).parents = [] ∧
    (make_root_commit C E).predecessors = [] ∧
    (make_root_commit C E).description = "" ∧
    (make_root_commit C E).author.name = "" ∧
    (make_root_commit C E).author.email = "" ∧
    (make_root_commit C E).author.timestamp = ⟨0, 0⟩ ∧
    (make_root_commit C E).committer.name = "" ∧
    (make_root_commit C E).committer.email = "" ∧
    (make_root_commit C E).committer.timestamp = ⟨0, 0⟩ ∧
    (make_root_commit C E).change_id = C ∧
    (make_root_commit C E).root_tree = MergedTreeId.Legacy E :=
  ⟨rfl, rfl, rfl, rfl, rfl, rfl, rfl, rfl, rfl, rfl, rfl⟩

/-- C10: the root commit's root tree is built with the `Legacy` variant, so it
compares equal to `resolved(E)` under `MergedTreeId` equality but contributes
the `"0"` tag byte (48) to a content hash, where `resolved(E)` would
contribute `"1"` (49). -/
theorem c10_root_commit_legacy_variant (C : ChangeId) (E : TreeId) :
    (make_root_commit C E).root_tree = MergedTreeId.Legacy E ∧
    MergedTreeId.eq (make_root_commit C E).root_tree (MergedTreeId.resolved E) = true ∧
    (MergedTreeId.hash (make_root_commit C E).root_tree).head? = some 48 ∧
    (MergedTreeId.hash (MergedTreeId.resolved E)).head? = some 49 :=
  ⟨rfl,
   by simp [make_root_commit, MergedTreeId.eq, MergedTreeId.to_merge, MergedTreeId.resolved,
     Merge.resolved],
   rfl, rfl⟩

/-- Modelled from the spec: `RepoPathComponent` (defined in the missing
`repo_path.rs`) wraps one path-component name, ordered by the name's byte
ordering. -/
abbrev RepoPathComponent := List Nat

/-- Strict byte-lexicographic order on component names (the derived `Ord` of
byte strings). -/
def bytesLt : List Nat → List Nat → Bool
  | [], [] => false
  | [], _ :: _ => true
  | _ :: _, [] => false
  | x :: xs, y :: ys => if x < y then true else if y < x then false else bytesLt xs ys

theorem bytesLt_irrefl : ∀ l : List Nat, bytesLt l l = false
  | [] => rfl
  | x :: xs => by simp [bytesLt, Nat.lt_irrefl, bytesLt_irrefl xs]

theorem bytesLt_trans : ∀ a b c : List Nat,
    bytesLt a b = true → bytesLt b c = true → bytesLt a c = true
  | [], [], _ => by intro h _; simp [bytesLt] at h
  | [], _ :: _, [] => by intro _ h; simp [bytesLt] at h
  | [], _ :: _, _ :: _ => by intro _ _; simp [bytesLt]
  | _ :: _, [], _ => by intro h _; simp [bytesLt] at h
  | _ :: _, _ :: _, [] => by intro _ h; simp [bytesLt] at h
  | x :: xs, y :: ys, z :: zs => by
    intro h1 h2
    simp only [bytesLt] at h1 h2 ⊢
    by_cases hxy : x < y
    · by_cases hyz : y < z
      · rw [if_pos (Nat.lt_trans hxy hyz)]
      · by_cases hzy : z < y
        · rw [if_neg hyz, if_pos hzy] at h2; exact absurd h2 (by simp)
        · have hyz' : y = z := by omega
          subst hyz'
          rw [if_pos hxy]
    · by_cases hyx : y < x
      · rw [if_neg hxy, if_pos hyx] at h1; exact absurd h1 (by simp)
      · have hxy' : x = y := by omega
        subst hxy'
        rw [if_neg hxy, if_neg hyx] at h1
        by_cases hyz : x < z
        · rw [if_pos hyz]
        · by_cases hzy : z < x
          · rw [if_neg hyz, if_pos hzy] at h2; exact absurd h2 (by simp)
          · have hxz : x = z := by omega
            subst hxz
            rw [if_neg hyz, if_neg hzy] at h2 ⊢
            exact bytesLt_trans xs ys zs h1 h2

theorem bytesLt_total : ∀ a b : List Nat, bytesLt a b = false → a ≠ b → bytesLt b a = true
  | [], [] => by intro _ h; exact absurd rfl h
  | [], _ :: _ => by intro h _; simp [bytesLt] at h
  | _ :: _, [] => by intro _ _; simp [bytesLt]
  | x :: xs, y :: ys => by
    intro h hne
    simp only [bytesLt] at h ⊢
    by_cases hxy : x < y
    · rw [if_pos hxy] at h; exact absurd h (by simp)
    · by_cases hyx : y < x
      · rw [if_pos hyx]
      · have hxy' : x = y := by omega
        subst hxy'
        rw [if_neg hxy, if_neg hyx] at h
        rw [if_neg hxy, if_neg hyx]
        refine bytesLt_total xs ys h fun hh => hne ?_
        rw [hh]

/-- Sorted-association-list model of `BTreeMap<RepoPathComponent, TreeValue>`
insertion: keys kept in strictly increasing byte order, an equal key's value
replaced. -/
def btreeInsert (name : RepoPathComponent) (value : TreeValue) :
    List (RepoPathComponent × TreeValue) → List (RepoPathComponent × TreeValue)
  | [] => [(name, value)]
  | (k, w) :: rest =>
    if bytesLt name k then (name, value) :: (k, w) :: rest
    else if name = k then (name, value) :: rest
    else (k, w) :: btreeInsert name value rest

/-- `BTreeMap::remove` on the sorted-association-list model. -/
def btreeRemove (name : RepoPathComponent) :
    List (RepoPathComponent × TreeValue) → List (RepoPathComponent × TreeValue)
  | [] => []
  | (k, w) :: rest => if name = k then rest else (k, w) :: btreeRemove name rest

/-- `BTreeMap::get` on the sorted-association-list model. -/
def btreeGet (name : RepoPathComponent) :
    List (RepoPathComponent × TreeValue) → Option TreeValue
  | [] => none
  | (k, w) :: rest => if name = k then some w else btreeGet name rest

namespace jj

/-- The `Tree` struct of `backend.rs`: an ordered mapping from component name
to `TreeValue` (a `BTreeMap`, modelled as an association list whose keys are
kept in strictly increasing byte order; `entries()` iterates it in that
order).  Namespaced because the plain name is taken by the library. -/
structure Tree where
  entries : List (RepoPathComponent × TreeValue)

/-- `Tree::set`: insert or overwrite. -/
def Tree.set (t : Tree) (name : RepoPathComponent) (value : TreeValue) : Tree :=
  ⟨btreeInsert name value t.entries⟩

/-- `Tree::remove`. -/
def Tree.remove (t : Tree) (name : RepoPathComponent) : Tree :=
  ⟨btreeRemove name t.entries⟩

/-- `Tree::set_or_remove`: remove when given no value, insert otherwise. -/
def Tree.set_or_remove (t : Tree) (name : RepoPathComponent)
    (value : Option TreeValue) : Tree :=
  match value with
  | none => ⟨btreeRemove name t.entries⟩
  | some value => ⟨btreeInsert name value t.entries⟩

/-- `Tree::value`: point lookup by name. -/
def Tree.value (t : Tree) (name : RepoPathComponent) : Option TreeValue :=
  btreeGet name t.entries

end jj

/-- Representation invariant of the `BTreeMap` model, and the C6 iteration
property: entry names strictly increasing in byte order. -/
def entriesSorted (l : List (RepoPathComponent × TreeValue)) : Prop :=
  List.Pairwise (fun p q => bytesLt p.1 q.1 = true) l

theorem mem_btreeInsert {name : RepoPathComponent} {value : TreeValue} :
    ∀ l p, p ∈ btreeInsert name value l → p = (name, value) ∨ p ∈ l := by
  intro l
  induction l with
  | nil => intro p hp; simp [btreeInsert] at hp; exact Or.inl hp
  | cons q rest ih =>
    rcases q with ⟨k, w⟩
    intro p hp
    simp only [btreeInsert] at hp
    by_cases h1 : bytesLt name k
    · rw [if_pos h1] at hp
      simp only [List.mem_cons] at hp
      rcases hp with rfl | rfl | hp
      · exact Or.inl rfl
      · exact Or.inr (List.mem_cons_self _ _)
      · exact Or.inr (List.mem_cons_of_mem _ hp)
    · rw [if_neg h1] at hp
      by_cases h2 : name = k
      · rw [if_pos h2] at hp
        simp only [List.mem_cons] at hp
        rcases hp with rfl | hp
        · exact Or.inl rfl
        · exact Or.inr (List.mem_cons_of_mem _ hp)
      · rw [if_neg h2] at hp
        simp only [List.mem_cons] at hp
        rcases hp with rfl | hp
        · exact Or.inr (List.mem_cons_self _ _)
        · rcases ih p hp with h | h
          · exact Or.inl h
          · exact Or.inr (List.mem_cons_of_mem _ h)

theorem btreeInsert_sorted {name : RepoPathComponent} {value : TreeValue} :
    ∀ l, entriesSorted l → entriesSorted (btreeInsert name value l) := by
  intro l
  induction l with
  | nil => intro _; simp [btreeInsert, entriesSorted]
  | cons q rest ih =>
    rcases q with ⟨k, w⟩
    intro hs
    rcases List.pairwise_cons.mp hs with ⟨hhead, hrest⟩
    simp only [btreeInsert]
    by_cases h1 : bytesLt name k
    · rw [if_pos h1]
      refine List.pairwise_cons.mpr ⟨?_, hs⟩
      intro p hp
      simp only [List.mem_cons] at hp
      rcases hp with rfl | hp
      · exact h1
      · exact bytesLt_trans name k p.1 h1 (hhead p hp)
    · rw [if_neg h1]
      by_cases h2 : name = k
      · rw [if_pos h2]
        refine List.pairwise_cons.mpr ⟨?_, hrest⟩
        intro p hp
        rw [h2]
        exact hhead p hp
      · rw [if_neg h2]
        refine List.pairwise_cons.mpr ⟨?_, ih hrest⟩
        intro p hp
        rcases mem_btreeInsert rest p hp with rfl | hp
        · exact bytesLt_total name k (by simpa using h1) h2
        · exact hhead p hp

theorem btreeRemove_sublist (name : RepoPathComponent) :
    ∀ l, List.Sublist (btreeRemove name l) l := by
  intro l
  induction l with
  | nil => simp [btreeRemove]
  | cons q rest ih =>
    rcases q with ⟨k, w⟩
    simp only [btreeRemove]
    by_cases h : name = k
    · rw [if_pos h]; exact List.sublist_cons_self _ _
    · rw [if_neg h]; exact ih.cons₂ _

theorem btreeRemove_sorted {name : RepoPathComponent} {l : List (RepoPathComponent × TreeValue)}
    (hs : entriesSorted l) : entriesSorted (btreeRemove name l) :=
  hs.sublist (btreeRemove_sublist name l)

theorem btreeGet_insert (name : RepoPathComponent) (value : TreeValue) :
    ∀ l, btreeGet name (btreeInsert name value l) = some value := by
  intro l
  induction l with
  | nil => simp [btreeInsert, btreeGet]
  | cons q rest ih =>
    rcases q with ⟨k, w⟩
    simp only [btreeInsert]
    by_cases h1 : bytesLt name k
    · rw [if_pos h1]; simp [btreeGet]
    · rw [if_neg h1]
      by_cases h2 : name = k
      · rw [if_pos h2]; simp [btreeGet]
      · rw [if_neg h2]
        simp only [btreeGet, if_neg h2]
        exact ih

theorem btreeGet_eq_none {name : RepoPathComponent} :
    ∀ l : List (RepoPathComponent × TreeValue),
      (∀ p ∈ l, p.1 ≠ name) → btreeGet name l = none := by
  intro l
  induction l with
  | nil => intro _; rfl
  | cons q rest ih =>
    rcases q with ⟨k, w⟩
    intro h
    have hk : k ≠ name := h (k, w) (List.mem_cons_self _ _)
    have hnk : name ≠ k := fun hh => hk hh.symm
    simp only [btreeGet, if_neg hnk]
    exact ih fun p hp => h p (List.mem_cons_of_mem _ hp)

theorem btreeGet_remove (name : RepoPathComponent) :
    ∀ l, entriesSorted l → btreeGet name (btreeRemove name l) = none := by
  intro l
  induction l with
  | nil => intro _; rfl
  | cons q rest ih =>
    rcases q with ⟨k, w⟩
    intro hs
    rcases List.pairwise_cons.mp hs with ⟨hhead, hrest⟩
    simp only [btreeRemove]
    by_cases h : name = k
    · rw [if_pos h]
      apply btreeGet_eq_none
      intro p hp hpn
      have := hhead p hp
      rw [hpn, h] at this
      rw [bytesLt_irrefl] at this
      exact Bool.false_ne_true this
    · rw [if_neg h]
      simp only [btreeGet, if_neg h]
      exact ih hrest

/-- C6: the empty tree's entries are sorted in strictly increasing byte order
of names; `set`, `remove` and `set_or_remove` preserve that ordering of
`entries()`; `value(n)` after `set(n, v)` is `v`, and after `remove(n)` is
none. -/
theorem c6_tree_operations (t : jj.Tree) (name : RepoPathComponent) (v : TreeValue)
    (h : entriesSorted t.entries) :
    entriesSorted (jj.Tree.mk []).entries ∧
    entriesSorted ((t.set name v).entries) ∧
    entriesSorted ((t.remove name).entries) ∧
    (∀ ov : Option TreeValue, entriesSorted ((t.set_or_remove name ov).entries)) ∧
    (t.set name v).value name = some v ∧
    (t.remove name).value name = none := by
  refine ⟨List.Pairwise.nil, btreeInsert_sorted t.entries h, btreeRemove_sorted h, ?_, ?_, ?_⟩
  · intro ov
    rcases ov with _ | v'
    · exact btreeRemove_sorted h
    · exact btreeInsert_sorted t.entries h
  · exact btreeGet_insert name v t.entries
  · exact btreeGet_remove name t.entries h

/-- C6 witness: a two-entry sorted tree, with `set` at a fresh name and
`remove` at an existing one. -/
theorem c6_tree_operations_witness :
    entriesSorted (jj.Tree.mk [([1], TreeValue.Symlink [9]), ([3], TreeValue.Tree [7])]).entries ∧
    ((jj.Tree.mk [([1], TreeValue.Symlink [9]), ([3], TreeValue.Tree [7])]).set [2]
        (TreeValue.File [5] true)).value [2] = some (TreeValue.File [5] true) :=
  ⟨by unfold entriesSorted; decide,
   (c6_tree_operations (jj.Tree.mk [([1], TreeValue.Symlink [9]), ([3], TreeValue.Tree [7])])
     [2] (TreeValue.File [5] true) (by unfold entriesSorted; decide)).2.2.2.2.1⟩
